import Mathlib

/-!
Verification development for the markdown file-block extractor
(`extractor.py`): a single regex pass locates file blocks inside a
markdown document, a rule table maps each filename to an output
subdirectory, and each block is written under that directory.

The Python source is shallowly embedded below: the regex
`^#\s*(\S+\.(py|js|jsx|html|css|json|yaml|yml|md))\s*\n(?:```(\w+)?\n)?([\s\S]*?)(?:```|(?=^# |\Z))`
with `re.MULTILINE` and `findall` is translated into an explicit
character-level scanner with the same leftmost, greedy/lazy backtracking
semantics; `detect_language_and_directory`, `load_custom_patterns`,
`save_file` and the `extract_full_files` driver are translated directly;
the parts of the Python standard library the source leans on (`re`
pattern compilation and search for the subset of syntax that can reach
it, `mimetypes.guess_type`, `dict.update` ordering, filesystem calls)
are modelled as executable Lean functions.
-/

/-- Character list, the working representation of Python strings. -/
abbrev Chars := List Char

/-- Coerce a Lean string literal to its character list. -/
def chars (s : String) : Chars := s.data

/-- The backtick character (code 96), written numerically. -/
def btick : Char := Char.ofNat 96

/-- Python whitespace (`\s` and `str.strip()` over ASCII): space, tab,
newline, carriage return, vertical tab, form feed. -/
def isPySpace (c : Char) : Bool :=
  c = ' ' || c = '\t' || c = '\n' || c = '\r' || c = '\x0b' || c = '\x0c'

/-- Python `\w` over ASCII: letters, digits, underscore. -/
def isWordChar (c : Char) : Bool :=
  ('a' ≤ c && c ≤ 'z') || ('A' ≤ c && c ≤ 'Z') || ('0' ≤ c && c ≤ '9') || c = '_'

/-- Python `str.strip()`: drop leading and trailing whitespace. -/
def pyStrip (l : Chars) : Chars :=
  ((l.dropWhile isPySpace).reverse.dropWhile isPySpace).reverse

/-- The three-backtick fence delimiter of the block regex. -/
def fenceChars : Chars := chars "```"

/-- One raw `findall` tuple: captured groups (filename, extension,
fence language, content), exactly as the regex produces them. -/
abbrev Quad := Chars × Chars × Chars × Chars

/-- The nine filename extensions recognized by the block regex, in the
order they appear in the alternation `(py|js|jsx|html|css|json|yaml|yml|md)`. -/
def recExts : List Chars :=
  [chars "py", chars "js", chars "jsx", chars "html", chars "css",
   chars "json", chars "yaml", chars "yml", chars "md"]

/-- The extension alternative matched by `\S+\.(py|...|md)` at the end of
a filename token, if any: the token must end in `.ext` and, because
`\S+` needs at least one character, have a nonempty stem before that
dot (so a bare `.py` is not a filename). -/
def endsWithRecExt (t : Chars) : Option Chars :=
  recExts.find? (fun e =>
    List.isSuffixOf ('.' :: e) t && decide (e.length + 1 < t.length))

/-- Does the text start with the literal ```` ``` ```` (first branch of
the terminator alternation `(?:```|(?=^# |\Z))`)? -/
def startsFence (s : Chars) : Bool := decide (s.take 3 = fenceChars)

/-- Does the text start with `# ` (the lookahead `(?=^# )`, meaningful
only at a line start)? -/
def startsHeadTerm (s : Chars) : Bool := decide (s.take 2 = chars "# ")

/-- Lazy content capture `([\s\S]*?)(?:```|(?=^# |\Z))`: starting from a
position whose line-start status is `ls`, take the shortest content so the
terminator matches.  Returns (content, text after the whole match, whether
the position after the match is at a line start). -/
def splitContent (ls : Bool) : Chars → Chars × Chars × Bool
  | [] => ([], [], false)
  | c :: rest =>
    if startsFence (c :: rest) then ([], (c :: rest).drop 3, false)
    else if ls && startsHeadTerm (c :: rest) then ([], c :: rest, true)
    else
      let r := splitContent (c = '\n') rest
      (c :: r.1, r.2.1, r.2.2)

/-- Attempt the block regex with the leading `#` already consumed: parse
`\s*`, the filename `(\S+\.(ext))`, `\s*\n`, the optional fence opener
`(?:```(\w+)?\n)?`, then the lazy content.  Mirrors the deterministic
backtracking outcome of the Python pattern (greedy `\s*`/`\S+`/fence,
lazy content; the tail alternation always succeeds via `\Z`, so the
greedy choices are never revisited). -/
def matchCore (tail : Chars) : Option (Quad × Chars × Bool) :=
  let afterWS := tail.dropWhile isPySpace
  let T := afterWS.takeWhile (fun c => !(isPySpace c))
  let afterT := afterWS.dropWhile (fun c => !(isPySpace c))
  if T.isEmpty then none
  else
    match endsWithRecExt T with
    | none => none
    | some ext =>
      let W2 := afterT.takeWhile isPySpace
      let afterW2 := afterT.dropWhile isPySpace
      if W2.contains '\n' then
        let tailWS := (W2.reverse.takeWhile (fun c => c ≠ '\n')).reverse
        let rest1 := tailWS ++ afterW2
        if startsFence rest1 then
          let rest2 := rest1.drop 3
          let R := rest2.takeWhile isWordChar
          let afterR := rest2.dropWhile isWordChar
          match afterR with
          | '\n' :: rest3 =>
            let r := splitContent true rest3
            some ((T, ext, R, r.1), r.2.1, r.2.2)
          | _ =>
            let r := splitContent true rest1
            some ((T, ext, [], r.1), r.2.1, r.2.2)
        else
          let r := splitContent true rest1
          some ((T, ext, [], r.1), r.2.1, r.2.2)
      else none

/-- Attempt the block regex at a line-start position: `^#` then the rest. -/
def matchAt : Chars → Option (Quad × Chars × Bool)
  | c :: tail => if c = '#' then matchCore tail else none
  | [] => none

/-- The `findall` loop: walk the document left to right; at each
line-start position try the pattern; on success emit the groups and
resume right after the match (matches are non-overlapping).  `fuel`
bounds the recursion; every step strictly consumes input. -/
def scanLoop : Nat → Bool → Chars → List Quad
  | 0, _, _ => []
  | _ + 1, _, [] => []
  | fuel + 1, ls, c :: rest =>
    if ls then
      match matchAt (c :: rest) with
      | some (q, r, ls2) => q :: scanLoop fuel ls2 r
      | none => scanLoop fuel (c = '\n') rest
    else scanLoop fuel (c = '\n') rest

/-- `file_pattern.findall(content)` from `extract_full_files`. -/
def file_pattern_findall (s : Chars) : List Quad :=
  scanLoop (s.length + 1) true s

/-- One position of the content terminator alternation
`(?:```|(?=^# |\Z))`: a fence delimiter, a line-start `# `, or the end
of the document. -/
def termAt (ls : Bool) (s : Chars) : Bool :=
  startsFence s || (ls && startsHeadTerm s) || s.isEmpty

/-- Line-start status after walking a list of characters whose first
position had line-start status `ls`. -/
def lastLS : Bool → Chars → Bool
  | ls, [] => ls
  | _, c :: rest => lastLS (c = '\n') rest

/-- No terminator occurs at any of the first `k` positions of `s`
(position 0 having line-start status `ls`). -/
def termFreeUpTo : Bool → Chars → Nat → Bool
  | _, _, 0 => true
  | _, [], _ + 1 => true
  | ls, c :: rest, k + 1 => !(termAt ls (c :: rest)) && termFreeUpTo (c = '\n') rest k

/-- The per-match postprocessing of `extract_full_files` (lines 133-137):
strip every captured group (`match[2]` is already `''` when the fence
group did not participate). -/
def stripQuad (q : Quad) : Quad :=
  (pyStrip q.1, pyStrip q.2.1, pyStrip q.2.2.1, pyStrip q.2.2.2)

/-- The sequence of blocks the driver iterates over. -/
def blocksOf (s : Chars) : List Quad :=
  (file_pattern_findall s).map stripQuad

/-!
### Model of `re` pattern compilation and search

`detect_language_and_directory` stores rule patterns as strings and runs
`re.search(pattern, file_name, re.IGNORECASE)` on each; an invalid
pattern makes `re.compile` (implicit in `re.search`) raise `re.error`.
The subset of regex syntax modelled covers the shapes that reach this
call in the source and its configuration format: literals, escapes,
`.`-any, character classes, groups, alternation and the `$` anchor;
quantifiers are outside the modelled subset and are treated as failing
to compile.  Compilation failure is `none`.
-/

/-- Abstract syntax of the modelled regex subset. -/
inductive RE where
  | eps : RE
  | lit : Char → RE
  | dotAny : RE
  | cls : Bool → List (Char × Char) → RE
  | seq : RE → RE → RE
  | alt : RE → RE → RE
  | eos : RE
deriving DecidableEq

deriving instance DecidableEq for Except

/-- Parse a character class body after `[` (and after an optional `^`),
up to the closing `]`.  Ranges `a-b` and escaped members are supported;
an unterminated class is a compile error. -/
def parseCls : Nat → Chars → Option (List (Char × Char) × Chars)
  | 0, _ => none
  | f + 1, s =>
    match s with
    | [] => none
    | ']' :: rest => some ([], rest)
    | '\\' :: c :: rest => do
        let (is, r) ← parseCls f rest
        pure ((c, c) :: is, r)
    | c :: '-' :: d :: rest =>
        if d = ']' then some ([(c, c), ('-', '-')], rest)
        else do
          let (is, r) ← parseCls f rest
          pure ((c, d) :: is, r)
    | c :: rest => do
        let (is, r) ← parseCls f rest
        pure ((c, c) :: is, r)

/-- Character classes for the `\w`, `\d`, `\s` escapes (ASCII). -/
def escCls (c : Char) : Option (Bool × List (Char × Char)) :=
  if c = 'w' then some (false, [('a', 'z'), ('A', 'Z'), ('0', '9'), ('_', '_')])
  else if c = 'd' then some (false, [('0', '9')])
  else if c = 's' then some (false, [(' ', ' '), ('\t', '\t'), ('\n', '\n'), ('\r', '\r'), ('\x0b', '\x0b'), ('\x0c', '\x0c')])
  else if c = 'W' then some (true, [('a', 'z'), ('A', 'Z'), ('0', '9'), ('_', '_')])
  else if c = 'D' then some (true, [('0', '9')])
  else if c = 'S' then some (true, [(' ', ' '), ('\t', '\t'), ('\n', '\n'), ('\r', '\r'), ('\x0b', '\x0b'), ('\x0c', '\x0c')])
  else none

/-- Recursive-descent parser for the modelled subset.  `mode 0` parses an
alternation, `mode 1` a sequence (stopping at `)`, `|` or the end),
`mode 2` a single atom.  All recursive calls decrease the fuel. -/
def parseRE : Nat → Nat → Chars → Option (RE × Chars)
  | 0, _, _ => none
  | f + 1, 0, s => do
      let (e1, s1) ← parseRE f 1 s
      match s1 with
      | '|' :: rest => do
          let (e2, s2) ← parseRE f 0 rest
          pure (RE.alt e1 e2, s2)
      | _ => pure (e1, s1)
  | f + 1, 1, s =>
      match s with
      | [] => some (RE.eps, [])
      | ')' :: _ => some (RE.eps, s)
      | '|' :: _ => some (RE.eps, s)
      | _ => do
          let (a, s1) ← parseRE f 2 s
          let (b, s2) ← parseRE f 1 s1
          pure (RE.seq a b, s2)
  | f + 1, 2, s =>
      match s with
      | [] => none
      | '(' :: rest => do
          let (e, s1) ← parseRE f 0 rest
          match s1 with
          | ')' :: s2 => pure (e, s2)
          | _ => none
      | '[' :: '^' :: rest => do
          let (is, r) ← parseCls f rest
          pure (RE.cls true is, r)
      | '[' :: rest => do
          let (is, r) ← parseCls f rest
          pure (RE.cls false is, r)
      | '\\' :: c :: rest =>
          match escCls c with
          | some (neg, is) => some (RE.cls neg is, rest)
          | none =>
              if c.isAlpha || c.isDigit then none
              else some (RE.lit c, rest)
      | '\\' :: [] => none
      | '$' :: rest => some (RE.eos, rest)
      | '.' :: rest => some (RE.dotAny, rest)
      | c :: rest =>
          if c = '*' || c = '+' || c = '?' || c = '{' || c = ')' || c = '|' then none
          else some (RE.lit c, rest)
  | _ + 1, _ + 3, _ => none

/-- `re.compile(pattern)`: `none` models `re.error`. -/
def reCompile (p : String) : Option RE :=
  match parseRE (4 * p.length + 8) 0 p.data with
  | some (e, []) => some e
  | _ => none

/-- Case-insensitive class membership. -/
def clsMem (rs : List (Char × Char)) (neg : Bool) (d : Char) : Bool :=
  let hit := rs.any (fun pr =>
    (decide (pr.1 ≤ d) && decide (d ≤ pr.2)) ||
    (decide (pr.1 ≤ d.toLower) && decide (d.toLower ≤ pr.2)))
  if neg then !hit else hit

/-- Match a regex against a text suffix, returning all possible
remainders (the engine has no quantifiers, so this list is finite).
Comparison is case-insensitive, matching the source's `re.IGNORECASE`. -/
def reMatch : RE → Chars → List Chars
  | RE.eps, s => [s]
  | RE.lit c, s =>
      match s with
      | d :: rest => if d.toLower = c.toLower then [rest] else []
      | [] => []
  | RE.dotAny, s =>
      match s with
      | d :: rest => if d = '\n' then [] else [rest]
      | [] => []
  | RE.cls neg rs, s =>
      match s with
      | d :: rest => if clsMem rs neg d then [rest] else []
      | [] => []
  | RE.eos, s => if s.isEmpty || s == ['\n'] then [s] else []
  | RE.seq a b, s => (reMatch a s).flatMap (reMatch b)
  | RE.alt a b, s => reMatch a s ++ reMatch b s

/-- `re.search`: does the pattern match starting at any position? -/
def reSearch (e : RE) (s : Chars) : Bool :=
  s.tails.any (fun t => !(reMatch e t).isEmpty)

/-!
### Classification rule set (`detect_language_and_directory`)
-/

/-- The built-in default table of `detect_language_and_directory`,
in source order: tag ↦ (directory segments, pattern). -/
def default_patterns : List (String × (List String × String)) :=
  [("python", (["backend"], "\\.py$")),
   ("javascript", (["frontend"], "\\.js$")),
   ("jsx", (["frontend"], "\\.jsx$")),
   ("html", (["templates"], "\\.html$")),
   ("css", (["static", "css"], "\\.css$")),
   ("json", (["static", "data"], "\\.json$")),
   ("yaml", (["config"], "\\.(yaml|yml)$")),
   ("markdown", (["docs"], "\\.md$"))]

/-- Is a tag present in an ordered rule list? -/
def hasTag (l : List (String × α)) (k : String) : Bool :=
  l.any (fun p => p.1 = k)

/-- First value bound to a tag, if any. -/
def lookupTag (l : List (String × α)) (k : String) : Option α :=
  (l.find? (fun p => p.1 = k)).map (fun p => p.2)

/-- One step of `dict.update`: an existing key is overwritten in place,
a new key is appended (Python 3 dicts preserve insertion order). -/
def updStep (acc : List (String × α)) (kv : String × α) : List (String × α) :=
  if hasTag acc kv.1 then acc.map (fun p => if p.1 = kv.1 then kv else p)
  else acc ++ [kv]

/-- `patterns.update(custom_patterns)` on ordered association lists. -/
def pyUpdate (base upd : List (String × α)) : List (String × α) :=
  upd.foldl updStep base

/-- The spec's description of the merge, as its own definition: every
built-in keeps its position, its value overridden by a caller rule with
the same tag when one exists; caller rules with new tags are appended
after all built-ins, in caller order. -/
def mergeSpec (base upd : List (String × α)) : List (String × α) :=
  base.map (fun p => (p.1, (lookupTag upd p.1).getD p.2)) ++
    upd.filter (fun kv => !(hasTag base kv.1))

/-- The rule loop of `detect_language_and_directory`: iterate rules in
order, `re.search` each pattern against the filename; `.error ()` models
an uncaught `re.error` from a pattern that does not compile. -/
def firstMatchRule : List (String × (List String × String)) → Chars →
    Except Unit (Option (String × List String))
  | [], _ => .ok none
  | (tag, (dir, pat)) :: rest, name =>
      match reCompile pat with
      | none => .error ()
      | some e =>
          if reSearch e name then .ok (some (tag, dir))
          else firstMatchRule rest name

/-- A representative table of `mimetypes` suffix bindings (the stdlib
map consulted by `mimetypes.guess_type`). -/
def types_map : List (Chars × Chars) :=
  [(chars "txt", chars "text/plain"), (chars "html", chars "text/html"),
   (chars "htm", chars "text/html"), (chars "css", chars "text/css"),
   (chars "csv", chars "text/csv"), (chars "xml", chars "text/xml"),
   (chars "js", chars "text/javascript"), (chars "png", chars "image/png"),
   (chars "jpg", chars "image/jpeg"), (chars "jpeg", chars "image/jpeg"),
   (chars "gif", chars "image/gif"), (chars "svg", chars "image/svg+xml"),
   (chars "pdf", chars "application/pdf"), (chars "zip", chars "application/zip"),
   (chars "json", chars "application/json"), (chars "gz", chars "application/gzip"),
   (chars "mp3", chars "audio/mpeg"), (chars "mp4", chars "video/mp4")]

/-- `mimetypes.guess_type`: look up the lowercased text after the last
dot; no dot or an unknown suffix gives `none`. -/
def guess_type (name : Chars) : Option Chars :=
  let extRev := name.reverse.takeWhile (fun c => c ≠ '.')
  if extRev.length = name.length then none
  else
    let ext := (extRev.reverse).map Char.toLower
    (types_map.find? (fun p => p.1 == ext)).map (fun p => p.2)

/-- `mime_type.split('/')[0]`. -/
def mimeMain (mt : Chars) : Chars := mt.takeWhile (fun c => c ≠ '/')

/-- `detect_language_and_directory(file_name, custom_patterns)`: merge
the custom rules over the defaults with dict-update semantics, return
the first rule whose pattern matches, else the MIME fallback, else
`("txt", ["misc"])`.  `.error ()` models an uncaught `re.error`. -/
def detect_language_and_directory (file_name : Chars)
    (custom_patterns : List (String × (List String × String))) :
    Except Unit (String × List String) :=
  match firstMatchRule (pyUpdate default_patterns custom_patterns) file_name with
  | .error e => .error e
  | .ok (some r) => .ok r
  | .ok none =>
      match guess_type file_name with
      | some mt => .ok (String.mk mt, [String.mk (mimeMain mt)])
      | none => .ok ("txt", ["misc"])

/-!
### Configuration loading (`load_custom_patterns`)
-/

/-- The directory component of one configuration entry: either a JSON
list of strings or something that is not a list. -/
inductive CfgDir where
  | strs : List String → CfgDir
  | notList : CfgDir
deriving DecidableEq

/-- The pattern component of one configuration entry. -/
inductive CfgPat where
  | str : String → CfgPat
  | notStr : CfgPat
deriving DecidableEq

/-- The value of one configuration entry: a two-element array
(unpackable as `dir_path, pattern`) or anything else (whose unpacking
raises `TypeError`). -/
inductive CfgVal where
  | pair : CfgDir → CfgPat → CfgVal
  | notPair : CfgVal
deriving DecidableEq

/-- The `isinstance` validation of `load_custom_patterns`. -/
def validEntry : CfgVal → Bool
  | .pair (.strs _) (.str _) => true
  | _ => false

/-- The validation loop of `load_custom_patterns`, with CPython's
iterator semantics: `del patterns[lang]` changes the dict size, and the
next call to the items iterator (including the final one) raises
`RuntimeError`.  The boolean flag records whether a deletion happened;
`.error ()` is an exception escaping the loop. -/
def iterEntries : List (String × CfgVal) → Bool →
    Except Unit (List (String × CfgVal))
  | [], false => .ok []
  | [], true => .error ()
  | _ :: _, true => .error ()
  | (k, v) :: rest, false =>
      match v with
      | .notPair => .error ()
      | .pair d p =>
          if validEntry (.pair d p) then
            match iterEntries rest false with
            | .ok kept => .ok ((k, .pair d p) :: kept)
            | .error e => .error e
          else iterEntries rest true

/-- `load_custom_patterns(config_path)`: `none` input models a missing
or unreadable/unparsable file.  Any exception inside the `try` block is
caught and an empty dict returned. -/
def load_custom_patterns (cfg : Option (List (String × CfgVal))) :
    List (String × (List String × String)) :=
  match cfg with
  | none => []
  | some entries =>
      match iterEntries entries false with
      | .ok kept =>
          kept.filterMap (fun kv =>
            match kv.2 with
            | .pair (.strs d) (.str p) => some (kv.1, (d, p))
            | _ => none)
      | .error _ => []

/-!
### Filesystem model and the materializer (`save_file`, driver loop)
-/

/-- A flat filesystem: existing directories and files with contents.
Paths are segment lists. -/
structure FS where
  dirs : List (List String)
  files : List (List String × Chars)
deriving DecidableEq

/-- `Path.mkdir` for one directory with `exist_ok=True`: an existing
directory is fine, but a path occupied by a file raises. -/
def mkdirOne (fs : FS) (p : List String) : Except Unit FS :=
  if fs.files.any (fun pr => pr.1 == p) then .error ()
  else if fs.dirs.contains p then .ok fs
  else .ok ⟨p :: fs.dirs, fs.files⟩

/-- Create a list of directories in order, stopping at the first error. -/
def mkdirList (fs : FS) : List (List String) → Except Unit FS
  | [] => .ok fs
  | p :: rest =>
      match mkdirOne fs p with
      | .error e => .error e
      | .ok fs1 => mkdirList fs1 rest

/-- All nonempty prefixes of a path, shortest first (`parents=True`). -/
def pathInits (p : List String) : List (List String) :=
  (List.range p.length).map (fun i => p.take (i + 1))

/-- `open(file_path, 'w')` + `write`: fails if the target is a
directory; otherwise replaces any existing file (last write wins). -/
def writeFileFS (fs : FS) (path : List String) (content : Chars) : Except Unit FS :=
  if fs.dirs.contains path then .error ()
  else .ok ⟨fs.dirs, (path, content) :: fs.files.filter (fun pr => !(pr.1 == path))⟩

/-- Read a file back. -/
def readFS (fs : FS) (path : List String) : Option Chars :=
  (fs.files.find? (fun pr => pr.1 == path)).map (fun pr => pr.2)

/-- The body of `save_file`'s `try`: create
`output_dir/<directory...>` (with parents) and write the stripped
content to `target_dir / file_name`. -/
def saveFileCore (file_name : String) (directory : List String)
    (file_content : Chars) (output_dir : List String) (fs : FS) : Except Unit FS :=
  match mkdirList fs (pathInits (output_dir ++ directory)) with
  | .error e => .error e
  | .ok fs1 => writeFileFS fs1 (output_dir ++ directory ++ [file_name]) (pyStrip file_content)

/-- `save_file`: any failure is caught and logged, leaving the
filesystem unchanged. -/
def save_file (file_name : String) (directory : List String)
    (file_content : Chars) (output_dir : List String) (fs : FS) : FS :=
  match saveFileCore file_name directory file_content output_dir fs with
  | .ok fs1 => fs1
  | .error _ => fs

/-- The driver loop of `extract_full_files` (lines 133-145): for each
match strip the groups, classify the filename, and save.  A `re.error`
escaping `detect_language_and_directory` aborts the run (it is not
caught); a `save_file` failure does not. -/
def processAll (cp : List (String × (List String × String)))
    (root : List String) : List Quad → FS → Except Unit FS
  | [], fs => .ok fs
  | (fn, _, _, ct) :: rest, fs =>
      match detect_language_and_directory (pyStrip fn) cp with
      | .error e => .error e
      | .ok (_, dir) =>
          processAll cp root rest
            (save_file (String.mk (pyStrip fn)) dir (pyStrip ct) root fs)

/-- Outcome of one `extract_full_files` run. -/
inductive ExtractResult where
  | readError : ExtractResult
  | noBlocks : ExtractResult
  | done : Nat → ExtractResult
deriving DecidableEq

/-- `extract_full_files(file_path, output_dir, custom_patterns)`:
`none` input models a missing or unreadable file; an empty match list is
reported and nothing is written; otherwise every match is processed. -/
def extract_full_files (input : Option Chars)
    (custom_patterns : List (String × (List String × String)))
    (output_dir : List String) (fs : FS) : Except Unit (FS × ExtractResult) :=
  match input with
  | none => .ok (fs, .readError)
  | some content =>
      let ms := file_pattern_findall content
      if ms.isEmpty then .ok (fs, .noBlocks)
      else
        match processAll custom_patterns output_dir ms fs with
        | .error e => .error e
        | .ok fs2 => .ok (fs2, .done ms.length)

/-- First character exists and is not whitespace. -/
def headNS : Chars → Bool
  | [] => false
  | c :: _ => !(isPySpace c)

/-- Body text free of scan boundaries: no backtick anywhere, and no
line starting with `# ` (position 0 taken with line-start status `ls`). -/
def cleanBody : Bool → Chars → Bool
  | _, [] => true
  | ls, c :: rest =>
      !(c = btick) && !(ls && startsHeadTerm (c :: rest)) && cleanBody (c = '\n') rest

/-- A well-formed segment of a document, `(filename, optional fence
language, body)`: the filename is a nonempty whitespace-free token
ending in a recognized extension; the body is nonempty and free of scan
boundaries; an unfenced body starts with a non-space character and ends
with a newline; a fenced body's language tag consists of word
characters. -/
def goodSeg : Chars × Option Chars × Chars → Bool
  | (name, fence, body) =>
      !name.isEmpty && name.all (fun c => !(isPySpace c)) &&
      (endsWithRecExt name).isSome && !body.isEmpty && cleanBody true body &&
      (match fence with
       | none => headNS body && lastLS true body
       | some lg => lg.all isWordChar)

/-- Render one segment as document text: `# name\nbody` when unfenced,
`# name\n`​`​```lang\nbody```\n` when fenced. -/
def mkSeg : Chars × Option Chars × Chars → Chars
  | (name, none, body) => '#' :: ' ' :: (name ++ '\n' :: body)
  | (name, some lg, body) =>
      '#' :: ' ' :: (name ++ '\n' ::
        (fenceChars ++ (lg ++ '\n' :: (body ++ (fenceChars ++ ['\n'])))))

/-- Render a list of segments as one document. -/
def mkDocL (segs : List (Chars × Option Chars × Chars)) : Chars :=
  segs.foldr (fun s acc => mkSeg s ++ acc) []

/-- The `findall` tuple a well-formed segment gives rise to. -/
def quadOf : Chars × Option Chars × Chars → Quad
  | (name, fence, body) => (name, (endsWithRecExt name).getD [], fence.getD [], body)

/-- The compiled form of the pattern `\.kt$` in the modelled engine
(used to instantiate rule-matching statements at a concrete input). -/
def ktRE : RE :=
  RE.seq (RE.lit '.') (RE.seq (RE.lit 'k') (RE.seq (RE.lit 't') (RE.seq RE.eos RE.eps)))

-- Sanity examples for the scanner.
example :
    blocksOf (chars "# a.py\nhello world\n# b.md\nsecond text\n") =
      [(chars "a.py", chars "py", [], chars "hello world"),
       (chars "b.md", chars "md", [], chars "second text")] := by decide

example :
    blocksOf (chars "# app.py\n```python\nline1\nline2\n```\n") =
      [(chars "app.py", chars "py", chars "python", chars "line1\nline2")] := by
  decide

/-!
### Helper lemmas
-/

theorem takeWhileAllAppend {p : Char → Bool} :
    ∀ {xs l : Chars}, (∀ x ∈ xs, p x = true) →
      (xs ++ l).takeWhile p = xs ++ l.takeWhile p := by
  intro xs
  induction xs with
  | nil => intro l _; rfl
  | cons c cs ih =>
      intro l h
      have hc : p c = true := h c (by simp)
      simp [List.takeWhile_cons, hc, ih (fun x hx => h x (by simp [hx]))]

theorem dropWhileAllAppend {p : Char → Bool} :
    ∀ {xs l : Chars}, (∀ x ∈ xs, p x = true) →
      (xs ++ l).dropWhile p = l.dropWhile p := by
  intro xs
  induction xs with
  | nil => intro l _; rfl
  | cons c cs ih =>
      intro l h
      have hc : p c = true := h c (by simp)
      simp [List.dropWhile_cons, hc, ih (fun x hx => h x (by simp [hx]))]

theorem takeWhileAllSat {p : Char → Bool} :
    ∀ l : Chars, ∀ x ∈ l.takeWhile p, p x = true := by
  intro l
  induction l with
  | nil => intro x hx; simp at hx
  | cons c cs ih =>
      intro x hx
      by_cases hc : p c = true
      · simp [List.takeWhile_cons, hc] at hx
        rcases hx with rfl | hx
        · exact hc
        · exact ih x hx
      · simp [List.takeWhile_cons, Bool.of_not_eq_true hc] at hx

theorem dropWhileAllFalse {p : Char → Bool} :
    ∀ {l : Chars}, (∀ x ∈ l, p x = false) → l.dropWhile p = l := by
  intro l h
  cases l with
  | nil => rfl
  | cons c cs => simp [List.dropWhile_cons, h c (by simp)]

theorem dropWhileIdem {p : Char → Bool} (l : Chars) :
    (l.dropWhile p).dropWhile p = l.dropWhile p := by
  induction l with
  | nil => rfl
  | cons c cs ih =>
      by_cases hc : p c = true
      · simp [List.dropWhile_cons, hc, ih]
      · simp [List.dropWhile_cons, Bool.of_not_eq_true hc]

theorem dropWhileGetLast {p : Char → Bool} :
    ∀ {l : Chars}, l.dropWhile p ≠ [] → (l.dropWhile p).getLast? = l.getLast? := by
  intro l
  induction l with
  | nil => intro h; simp at h
  | cons c cs ih =>
      intro h
      by_cases hc : p c = true
      · simp only [List.dropWhile_cons, hc, if_true] at h ⊢
        rw [ih h]
        cases cs with
        | nil => simp at h
        | cons d ds => rw [List.getLast?_cons_cons]
      · simp [List.dropWhile_cons, Bool.of_not_eq_true hc]

theorem dropWhileHeadFalse {p : Char → Bool} :
    ∀ {l : Chars} {c : Char}, (l.dropWhile p).head? = some c → p c = false := by
  intro l
  induction l with
  | nil => intro c h; simp at h
  | cons d ds ih =>
      intro c h
      by_cases hd : p d = true
      · rw [List.dropWhile_cons, if_pos hd] at h; exact ih h
      · rw [List.dropWhile_cons, if_neg hd] at h
        simp at h
        subst h
        exact Bool.of_not_eq_true hd

theorem dropWhileOfHeadFalse {p : Char → Bool} {l : Chars}
    (h : ∀ c, l.head? = some c → p c = false) : l.dropWhile p = l := by
  cases l with
  | nil => rfl
  | cons c cs => simp [List.dropWhile_cons, h c rfl]

/-- `strip` is idempotent: stripping at extraction and again at write
composes to a single strip. -/
theorem pyStripIdem (l : Chars) : pyStrip (pyStrip l) = pyStrip l := by
  unfold pyStrip
  have h1 : (((l.dropWhile isPySpace).reverse.dropWhile isPySpace).reverse).dropWhile isPySpace
      = ((l.dropWhile isPySpace).reverse.dropWhile isPySpace).reverse := by
    apply dropWhileOfHeadFalse
    intro c hc
    rw [List.head?_reverse] at hc
    have hne : (l.dropWhile isPySpace).reverse.dropWhile isPySpace ≠ [] := by
      intro he; rw [he] at hc; simp at hc
    rw [dropWhileGetLast hne, List.getLast?_reverse] at hc
    exact dropWhileHeadFalse hc
  rw [h1, List.reverse_reverse, dropWhileIdem]

theorem pyStripNoSpace {l : Chars} (h : l.all (fun c => !(isPySpace c)) = true) :
    pyStrip l = l := by
  have h2 : ∀ c ∈ l, isPySpace c = false := by
    intro c hc
    have := List.all_eq_true.mp h c hc
    simpa using this
  unfold pyStrip
  rw [dropWhileAllFalse h2,
    dropWhileAllFalse (fun c hc => h2 c (List.mem_reverse.mp hc)),
    List.reverse_reverse]

theorem matchAtNoneOfNeHash {c : Char} (l : Chars) (h : c ≠ '#') :
    matchAt (c :: l) = none := by
  simp [matchAt, h]

theorem scanLoopNoHash : ∀ (s : Chars) (fuel : Nat) (ls : Bool),
    (∀ c ∈ s, c ≠ '#') → scanLoop fuel ls s = [] := by
  intro s
  induction s with
  | nil => intro fuel ls _; cases fuel <;> rfl
  | cons c rest ih =>
      intro fuel ls h
      cases fuel with
      | zero => rfl
      | succ f =>
          have hc : c ≠ '#' := h c (by simp)
          have hrest : ∀ x ∈ rest, x ≠ '#' := fun x hx => h x (by simp [hx])
          by_cases hls : ls = true
          · simp [scanLoop, hls, matchAtNoneOfNeHash rest hc, ih f _ hrest]
          · simp [scanLoop, Bool.of_not_eq_true hls, ih f _ hrest]

/-!
### Claim theorems
-/

/-- Claim C3: the claim says a malformed configuration entry is dropped
with a warning while all well-formed entries survive.  The code instead
deletes from the dict during `items()` iteration; CPython raises
`RuntimeError` at the next iterator step, the outer `except` catches it,
and the whole configuration — including every well-formed entry — is
lost.  Evaluated: one malformed entry beside a well-formed one yields
the empty rule set, while the same well-formed entry alone survives. -/
theorem load_custom_patterns_loses_entries_on_malformed :
    load_custom_patterns (some [("good", .pair (.strs ["backend"]) (.str "\\.foo$")),
                                ("bad", .pair (.strs ["x"]) .notStr)]) = [] ∧
    load_custom_patterns (some [("good", .pair (.strs ["backend"]) (.str "\\.foo$"))]) =
      [("good", (["backend"], "\\.foo$"))] :=
  ⟨rfl, rfl⟩

/-- Claim C8: when the scan finds zero blocks the run reports
`noBlocks` and returns the filesystem unchanged (nothing is written,
no exception); and a document with no `#` at all — in particular an
empty or whitespace-only document — always scans to zero blocks. -/
theorem extract_no_blocks_writes_nothing :
    (∀ (doc : Chars) (cp : List (String × (List String × String)))
       (root : List String) (fs : FS),
       file_pattern_findall doc = [] →
       extract_full_files (some doc) cp root fs = .ok (fs, .noBlocks)) ∧
    (∀ s : Chars, (∀ c ∈ s, c ≠ '#') → file_pattern_findall s = []) := by
  constructor
  · intro doc cp root fs h
    simp [extract_full_files, h]
  · intro s h
    exact scanLoopNoHash s _ true h

theorem mkdirOneFiles {fs fs1 : FS} {p : List String} (h : mkdirOne fs p = .ok fs1) :
    fs1.files = fs.files := by
  unfold mkdirOne at h
  split_ifs at h with h1 h2
  · injection h with h3; subst h3; rfl
  · injection h with h3; subst h3; rfl

theorem mkdirListFiles : ∀ (ps : List (List String)) (fs fs1 : FS),
    mkdirList fs ps = .ok fs1 → fs1.files = fs.files := by
  intro ps
  induction ps with
  | nil =>
      intro fs fs1 h
      simp [mkdirList] at h
      rw [h]
  | cons p rest ih =>
      intro fs fs1 h
      unfold mkdirList at h
      cases hm : mkdirOne fs p with
      | error e => rw [hm] at h; simp at h
      | ok fs2 =>
          rw [hm] at h
          exact (ih fs2 fs1 h).trans (mkdirOneFiles hm)

theorem writeReadBack {fs fs2 : FS} {path : List String} {c : Chars}
    (h : writeFileFS fs path c = .ok fs2) : readFS fs2 path = some c := by
  unfold writeFileFS at h
  split_ifs at h with h1
  injection h with h3
  subst h3
  unfold readFS
  rw [List.find?_cons_of_pos _ (by simp)]
  rfl

/-- Claim C9: materializing a block and reading the written file back
gives exactly the block's content trimmed of leading and trailing
whitespace — the strip at extraction and the strip at write compose to
a single strip. -/
theorem save_roundtrip_trimmed :
    ∀ (s : Chars) (q : Quad) (dir root : List String) (fs fs2 : FS),
      q ∈ file_pattern_findall s →
      saveFileCore (String.mk (pyStrip q.1)) dir (pyStrip q.2.2.2) root fs = .ok fs2 →
      readFS fs2 (root ++ dir ++ [String.mk (pyStrip q.1)]) = some (pyStrip q.2.2.2) := by
  intro s q dir root fs fs2 _ hsave
  unfold saveFileCore at hsave
  cases hmk : mkdirList fs (pathInits (root ++ dir)) with
  | error e => rw [hmk] at hsave; simp at hsave
  | ok fs1 =>
      rw [hmk] at hsave
      have hr := writeReadBack hsave
      rwa [pyStripIdem] at hr

/-- Witness for C9 at the block of `# n.py` followed by an indented
line, saved to the `backend` bucket under root `o`. -/
theorem save_roundtrip_trimmed_witness :
    (chars "n.py", chars "py", ([] : Chars), chars " data \n") ∈
      file_pattern_findall (chars "# n.py\n data \n") ∧
    saveFileCore (String.mk (pyStrip (chars "n.py"))) ["backend"]
        (pyStrip (chars " data \n")) ["o"] ⟨[], []⟩ =
      .ok ⟨[["o", "backend"], ["o"]], [(["o", "backend", "n.py"], chars "data")]⟩ ∧
    readFS ⟨[["o", "backend"], ["o"]], [(["o", "backend", "n.py"], chars "data")]⟩
        (["o"] ++ ["backend"] ++ [String.mk (pyStrip (chars "n.py"))]) =
      some (pyStrip (chars " data \n")) := by
  refine ⟨by decide, by decide, ?_⟩
  exact save_roundtrip_trimmed (chars "# n.py\n data \n")
    (chars "n.py", chars "py", [], chars " data \n") ["backend"] ["o"] ⟨[], []⟩
    ⟨[["o", "backend"], ["o"]], [(["o", "backend", "n.py"], chars "data")]⟩
    (by decide) (by decide)

/-- Claim C6: a filename matched by no rule of the merged rule set and
with no MIME inference resolves to tag `"txt"` and path `["misc"]`. -/
theorem fallback_txt_misc :
    ∀ (name : Chars) (cp : List (String × (List String × String))),
      firstMatchRule (pyUpdate default_patterns cp) name = .ok none →
      guess_type name = none →
      detect_language_and_directory name cp = .ok ("txt", ["misc"]) := by
  intro name cp h1 h2
  unfold detect_language_and_directory
  rw [h1, h2]

/-- Witness for C6 at the extensionless filename `README`. -/
theorem fallback_txt_misc_witness :
    firstMatchRule (pyUpdate default_patterns []) (chars "README") = .ok none ∧
    guess_type (chars "README") = none ∧
    detect_language_and_directory (chars "README") [] = .ok ("txt", ["misc"]) := by
  refine ⟨by decide, by decide, ?_⟩
  exact fallback_txt_misc (chars "README") [] (by decide) (by decide)

/-- Claim C4 counterexample: `load_custom_patterns` accepts the
non-compiling pattern `[` (its validation only checks the types of the
two components), and `detect_language_and_directory` then raises
`re.error` — the claimed rejection-before-use and never-raises
properties fail. -/
theorem detect_raises_on_uncompilable_pattern :
    load_custom_patterns (some [("brackets", .pair (.strs ["d"]) (.str "["))]) =
      [("brackets", (["d"], "["))] ∧
    detect_language_and_directory (chars "zz.qqq") [("brackets", (["d"], "["))] =
      .error () :=
  ⟨rfl, rfl⟩

theorem firstMatchTotal :
    ∀ (rules : List (String × (List String × String))) (name : Chars),
      (∀ r ∈ rules, (reCompile r.2.2).isSome = true) →
      ∃ o, firstMatchRule rules name = .ok o := by
  intro rules
  induction rules with
  | nil => intro name _; exact ⟨none, rfl⟩
  | cons r rest ih =>
      intro name h
      obtain ⟨tag, dir, pat⟩ := r
      have hc : (reCompile pat).isSome = true := h (tag, dir, pat) (by simp)
      cases he : reCompile pat with
      | none => rw [he] at hc; simp at hc
      | some e =>
          unfold firstMatchRule
          rw [he]
          by_cases hs : reSearch e name = true
          · exact ⟨some (tag, dir), by simp [hs]⟩
          · obtain ⟨o, ho⟩ := ih name (fun x hx => h x (by simp [hx]))
            exact ⟨o, by simp [Bool.of_not_eq_true hs, ho]⟩

/-- Claim C4 as amended: pattern compilability is not validated
anywhere, but whenever every pattern of the merged rule set does
compile, `detect_language_and_directory` never raises — it returns some
(tag, pathSegments) for every filename. -/
theorem detect_total_when_patterns_compile :
    ∀ (name : Chars) (cp : List (String × (List String × String))),
      (∀ r ∈ pyUpdate default_patterns cp, (reCompile r.2.2).isSome = true) →
      ∃ res, detect_language_and_directory name cp = .ok res := by
  intro name cp h
  obtain ⟨o, ho⟩ := firstMatchTotal _ name h
  unfold detect_language_and_directory
  rw [ho]
  cases o with
  | some r => exact ⟨r, rfl⟩
  | none =>
      cases hg : guess_type name with
      | some mt => exact ⟨_, rfl⟩
      | none => exact ⟨_, rfl⟩

/-- Witness for the amended C4: all default patterns plus a compiling
custom pattern, on a filename only the custom rule matches. -/
theorem detect_total_when_patterns_compile_witness :
    (∀ r ∈ pyUpdate default_patterns [("zrule", (["zd"], "\\.zz$"))],
       (reCompile r.2.2).isSome = true) ∧
    (∃ res, detect_language_and_directory (chars "a.zz")
        [("zrule", (["zd"], "\\.zz$"))] = .ok res) := by
  refine ⟨by decide, ?_⟩
  exact detect_total_when_patterns_compile (chars "a.zz")
    [("zrule", (["zd"], "\\.zz$"))] (by decide)

/-- Claim C7: a `save_file` failure for one block (here: the general
statement that a failing save leaves the loop state unchanged and the
remaining blocks are processed exactly as before, plus the concrete
scenario where the first block's target directory collides with an
existing file and the second block is still classified and written). -/
theorem save_failure_isolated :
    (∀ (cp : List (String × (List String × String))) (root : List String)
       (fn ex lg ct : Chars) (rest : List Quad) (fs : FS) (tag : String)
       (dir : List String),
       detect_language_and_directory (pyStrip fn) cp = .ok (tag, dir) →
       saveFileCore (String.mk (pyStrip fn)) dir (pyStrip ct) root fs = .error () →
       processAll cp root ((fn, ex, lg, ct) :: rest) fs = processAll cp root rest fs) ∧
    extract_full_files (some (chars "# a.py\nxx\n# b.md\nyy\n")) [] ["out"]
        ⟨[["out"]], [(["out", "backend"], chars "occupied")]⟩ =
      .ok (⟨[["out", "docs"], ["out"]],
            [(["out", "docs", "b.md"], chars "yy"),
             (["out", "backend"], chars "occupied")]⟩,
           .done 2) := by
  constructor
  · intro cp root fn ex lg ct rest fs tag dir hdet hsave
    simp only [processAll, hdet, save_file, hsave]
  · rfl

/-- Witness for C7's general part at the colliding-directory block. -/
theorem save_failure_isolated_witness :
    detect_language_and_directory (pyStrip (chars "a.py")) [] =
      .ok ("python", ["backend"]) ∧
    saveFileCore (String.mk (pyStrip (chars "a.py"))) ["backend"]
        (pyStrip (chars "xx")) ["out"]
        ⟨[["out"]], [(["out", "backend"], chars "occupied")]⟩ = .error () ∧
    processAll [] ["out"]
        [(chars "a.py", chars "py", [], chars "xx"),
         (chars "b.md", chars "md", [], chars "yy")]
        ⟨[["out"]], [(["out", "backend"], chars "occupied")]⟩ =
      processAll [] ["out"] [(chars "b.md", chars "md", [], chars "yy")]
        ⟨[["out"]], [(["out", "backend"], chars "occupied")]⟩ := by
  refine ⟨by decide, by decide, ?_⟩
  exact save_failure_isolated.1 [] ["out"] (chars "a.py") (chars "py") []
    (chars "xx") [(chars "b.md", chars "md", [], chars "yy")]
    ⟨[["out"]], [(["out", "backend"], chars "occupied")]⟩ "python" ["backend"]
    (by decide) (by decide)

theorem matchCorePost {tail : Chars} {q : Quad} {r : Chars} {b : Bool}
    (h : matchCore tail = some (q, r, b)) :
    q.1.all (fun c => !(isPySpace c)) = true ∧ endsWithRecExt q.1 = some q.2.1 := by
  simp only [matchCore] at h
  repeat' split at h
  all_goals try exact Option.noConfusion h
  all_goals obtain rfl : _ = q := congrArg Prod.fst (Option.some.inj h)
  all_goals refine ⟨List.all_eq_true.mpr (takeWhileAllSat _), ?_⟩
  all_goals assumption

theorem matchAtPost {s : Chars} {q : Quad} {r : Chars} {b : Bool}
    (h : matchAt s = some (q, r, b)) :
    q.1.all (fun c => !(isPySpace c)) = true ∧ endsWithRecExt q.1 = some q.2.1 := by
  cases s with
  | nil => simp [matchAt] at h
  | cons c rest =>
      simp only [matchAt] at h
      split_ifs at h with hc
      exact matchCorePost h

theorem scanLoopPost : ∀ (fuel : Nat) (ls : Bool) (s : Chars) (q : Quad),
    q ∈ scanLoop fuel ls s →
    q.1.all (fun c => !(isPySpace c)) = true ∧ endsWithRecExt q.1 = some q.2.1 := by
  intro fuel
  induction fuel with
  | zero => intro ls s q hq; simp [scanLoop] at hq
  | succ f ih =>
      intro ls s q hq
      cases s with
      | nil => simp [scanLoop] at hq
      | cons c rest =>
          by_cases hls : ls = true
          · rw [hls] at hq
            simp only [scanLoop, if_true] at hq
            cases hm : matchAt (c :: rest) with
            | none => rw [hm] at hq; exact ih _ _ q hq
            | some t =>
                obtain ⟨q0, r0, b0⟩ := t
                rw [hm] at hq
                rcases List.mem_cons.mp hq with rfl | hq2
                · exact matchAtPost hm
                · exact ih _ _ q hq2
          · rw [Bool.of_not_eq_true hls] at hq
            simp only [scanLoop, Bool.false_eq_true, if_false] at hq
            exact ih _ _ q hq

theorem splitContentFirstTerm : ∀ (s : Chars) (ls : Bool),
    termFreeUpTo ls s ((splitContent ls s).1.length) = true ∧
    termAt (lastLS ls (splitContent ls s).1) (s.drop (splitContent ls s).1.length) = true := by
  intro s
  induction s with
  | nil =>
      intro ls
      constructor
      · rfl
      · simp [splitContent, termAt, lastLS]
  | cons c rest ih =>
      intro ls
      cases hF : startsFence (c :: rest) with
      | true =>
          constructor
          · simp [splitContent, hF, termFreeUpTo]
          · simp [splitContent, hF, termAt, lastLS]
      | false =>
          cases hH : ls && startsHeadTerm (c :: rest) with
          | true =>
              constructor
              · simp [splitContent, hF, hH, termFreeUpTo]
              · simp [splitContent, hF, hH, termAt, lastLS]
          | false =>
              have hsplit : (splitContent ls (c :: rest)).1 =
                  c :: (splitContent (c = '\n') rest).1 := by
                simp [splitContent, hF, hH]
              constructor
              · rw [hsplit, List.length_cons]
                have hterm : termAt ls (c :: rest) = false := by
                  simp [termAt, hF, hH]
                simp [termFreeUpTo, hterm, (ih (c = '\n')).1]
              · rw [hsplit, List.length_cons, List.drop_succ_cons]
                have hLS : lastLS ls (c :: (splitContent (c = '\n') rest).1) =
                    lastLS (c = '\n') (splitContent (c = '\n') rest).1 := rfl
                rw [hLS]
                exact (ih (c = '\n')).2

theorem anyCongr {α : Type} {p q : α → Bool} :
    ∀ {l : List α}, (∀ x ∈ l, p x = q x) → l.any p = l.any q := by
  intro l
  induction l with
  | nil => intro _; rfl
  | cons c cs ih =>
      intro h
      simp only [List.any_cons, h c (by simp), ih (fun x hx => h x (by simp [hx]))]

theorem filterCongr {α : Type} {p q : α → Bool} :
    ∀ {l : List α}, (∀ x ∈ l, p x = q x) → l.filter p = l.filter q := by
  intro l
  induction l with
  | nil => intro _; rfl
  | cons c cs ih =>
      intro h
      simp only [List.filter_cons, h c (by simp), ih (fun x hx => h x (by simp [hx]))]

theorem lookupTagCons {α : Type} (a : String) (b : α) (l : List (String × α)) (k : String) :
    lookupTag ((a, b) :: l) k = if a = k then some b else lookupTag l k := by
  unfold lookupTag
  by_cases h : a = k
  · rw [List.find?_cons_of_pos _ (by simp [h]), if_pos h]; rfl
  · rw [List.find?_cons_of_neg _ (by simp [h]), if_neg h]

theorem lookupTagNone {α : Type} {l : List (String × α)} {k : String}
    (h : ∀ p ∈ l, p.1 ≠ k) : lookupTag l k = none := by
  unfold lookupTag
  rw [List.find?_eq_none.mpr (fun x hx => by simp [h x hx])]
  rfl

theorem hasTagFalse {α : Type} {l : List (String × α)} {k : String}
    (h : hasTag l k = false) : ∀ p ∈ l, p.1 ≠ k := by
  intro p hp
  unfold hasTag at h
  rw [List.any_eq_false] at h
  have := h p hp
  simpa using this

theorem notMemMapFst {α : Type} {l : List (String × α)} {k : String}
    (h : k ∉ l.map (fun p => p.1)) : ∀ p ∈ l, p.1 ≠ k := by
  intro p hp hpk
  exact h (List.mem_map.mpr ⟨p, hp, hpk⟩)

/-- `dict.update` semantics coincide with the spec's description of the
merge: built-ins keep their slots (with overridden values), new tags are
appended in caller order. -/
theorem pyUpdateMerge {α : Type} : ∀ (upd base : List (String × α)),
    (upd.map (fun p => p.1)).Nodup →
    pyUpdate base upd = mergeSpec base upd := by
  intro upd
  induction upd with
  | nil =>
      intro base _
      unfold pyUpdate mergeSpec
      simp [lookupTag]
  | cons kv rest ih =>
      intro base hnd
      rw [List.map_cons, List.nodup_cons] at hnd
      obtain ⟨hkv, hnd1⟩ := hnd
      have hrestne : ∀ p ∈ rest, p.1 ≠ kv.1 := by
        intro p hp hpk
        exact hkv (List.mem_map.mpr ⟨p, hp, hpk⟩)
      have hstep : pyUpdate base (kv :: rest) = pyUpdate (updStep base kv) rest := rfl
      rw [hstep, ih _ hnd1]
      by_cases hb : hasTag base kv.1 = true
      · -- existing tag: overwrite in place
        unfold updStep
        rw [if_pos hb]
        unfold mergeSpec
        have hA : (base.map (fun p => if p.1 = kv.1 then kv else p)).map
              (fun p => (p.1, (lookupTag rest p.1).getD p.2)) =
            base.map (fun p => (p.1, (lookupTag (kv :: rest) p.1).getD p.2)) := by
          rw [List.map_map]
          apply List.map_congr_left
          intro p _
          by_cases hpk : p.1 = kv.1
          · simp only [Function.comp, if_pos hpk]
            have h1 : lookupTag rest kv.1 = none := lookupTagNone hrestne
            have h2 : lookupTag (kv :: rest) p.1 = some kv.2 := by
              obtain ⟨a, b⟩ := kv
              rw [lookupTagCons, if_pos hpk.symm]
            rw [h2, hpk, h1]
            rfl
          · simp only [Function.comp, if_neg hpk]
            have h2 : lookupTag (kv :: rest) p.1 = lookupTag rest p.1 := by
              obtain ⟨a, b⟩ := kv
              rw [lookupTagCons, if_neg (fun hh => hpk hh.symm)]
            rw [h2]
        have hB : rest.filter
              (fun e => !(hasTag (base.map (fun p => if p.1 = kv.1 then kv else p)) e.1)) =
            (kv :: rest).filter (fun e => !(hasTag base e.1)) := by
          rw [List.filter_cons]
          have hkvpred : (!(hasTag base kv.1)) = false := by rw [hb]; rfl
          rw [hkvpred]
          simp only [Bool.false_eq_true, if_false]
          apply filterCongr
          intro e _
          have : hasTag (base.map (fun p => if p.1 = kv.1 then kv else p)) e.1 =
              hasTag base e.1 := by
            unfold hasTag
            rw [List.any_map]
            apply anyCongr
            intro p _
            by_cases hpk : p.1 = kv.1
            · simp [Function.comp, hpk]
            · simp [Function.comp, hpk]
          rw [this]
        rw [hA, hB]
      · -- new tag: appended after the base
        unfold updStep
        rw [if_neg hb]
        have hb2 : hasTag base kv.1 = false := Bool.of_not_eq_true hb
        have hbase : ∀ p ∈ base, p.1 ≠ kv.1 := hasTagFalse hb2
        unfold mergeSpec
        have hA2 : (base ++ [kv]).map (fun p => (p.1, (lookupTag rest p.1).getD p.2)) =
            base.map (fun p => (p.1, (lookupTag (kv :: rest) p.1).getD p.2)) ++ [kv] := by
          rw [List.map_append]
          congr 1
          · apply List.map_congr_left
            intro p hp
            have h2 : lookupTag (kv :: rest) p.1 = lookupTag rest p.1 := by
              obtain ⟨a, b⟩ := kv
              rw [lookupTagCons, if_neg (fun hh => hbase p hp hh.symm)]
            rw [h2]
          · simp only [List.map_cons, List.map_nil]
            rw [lookupTagNone hrestne]
            rfl
        have hB2 : rest.filter (fun e => !(hasTag (base ++ [kv]) e.1)) =
            rest.filter (fun e => !(hasTag base e.1)) := by
          apply filterCongr
          intro q hq
          have h3 : hasTag (base ++ [kv]) q.1 = hasTag base q.1 := by
            unfold hasTag
            rw [List.any_append]
            have h4 : [kv].any (fun p => p.1 = q.1) = false := by
              simp [Ne.symm (hrestne q hq)]
            rw [h4, Bool.or_false]
          rw [h3]
        have hC2 : (kv :: rest).filter (fun e => !(hasTag base e.1)) =
            kv :: rest.filter (fun e => !(hasTag base e.1)) := by
          simp only [List.filter_cons, hb2, Bool.not_false, if_true]
        rw [hA2, hB2, hC2, List.append_assoc, List.singleton_append]

theorem firstMatchAt :
    ∀ (pre : List (String × (List String × String))) (tag : String)
      (dir : List String) (pat : String)
      (post : List (String × (List String × String))) (name : Chars) (e : RE),
      (∀ r ∈ pre, ∃ er, reCompile r.2.2 = some er ∧ reSearch er name = false) →
      reCompile pat = some e → reSearch e name = true →
      firstMatchRule (pre ++ (tag, (dir, pat)) :: post) name = .ok (some (tag, dir)) := by
  intro pre
  induction pre with
  | nil =>
      intro tag dir pat post name e _ hc hs
      rw [List.nil_append]
      unfold firstMatchRule
      rw [hc]
      simp [hs]
  | cons r pre ih =>
      intro tag dir pat post name e hpre hc hs
      obtain ⟨rt, rd, rp⟩ := r
      obtain ⟨er, her, hsr⟩ := hpre (rt, rd, rp) (by simp)
      rw [List.cons_append]
      unfold firstMatchRule
      rw [her]
      simp only [hsr, Bool.false_eq_true, if_false]
      exact ih tag dir pat post name e (fun x hx => hpre x (by simp [hx])) hc hs

/-- Claim C5: merging caller rules over the defaults keeps a built-in
tag's position while replacing its value, appends new tags after all
built-ins in caller order (`pyUpdate` coincides with `mergeSpec`, the
direct rendering of the spec's override semantics), and resolution
returns the (tag, pathSegments) of the first rule in this merged order
whose pattern matches the filename. -/
theorem merge_order_and_first_match :
    (∀ upd : List (String × (List String × String)),
       (upd.map (fun p => p.1)).Nodup →
       pyUpdate default_patterns upd = mergeSpec default_patterns upd) ∧
    (∀ (upd : List (String × (List String × String))) (name : Chars)
       (pre : List (String × (List String × String))) (tag : String)
       (dir : List String) (pat : String)
       (post : List (String × (List String × String))) (e : RE),
       pyUpdate default_patterns upd = pre ++ (tag, (dir, pat)) :: post →
       (∀ r ∈ pre, ∃ er, reCompile r.2.2 = some er ∧ reSearch er name = false) →
       reCompile pat = some e → reSearch e name = true →
       detect_language_and_directory name upd = .ok (tag, dir)) := by
  constructor
  · intro upd h
    exact pyUpdateMerge upd default_patterns h
  · intro upd name pre tag dir pat post e hmerge hpre hc hs
    unfold detect_language_and_directory
    rw [hmerge, firstMatchAt pre tag dir pat post name e hpre hc hs]

/-- Witness for C5: the caller overrides the built-in `python` tag
(keeping its first slot) and resolution picks that overridden first
rule on a matching filename. -/
theorem merge_order_and_first_match_witness :
    ((([("python", (["srv"], "\\.kt$"))] : List (String × (List String × String))).map
        (fun p => p.1)).Nodup ∧
     pyUpdate default_patterns [("python", (["srv"], "\\.kt$"))] =
       mergeSpec default_patterns [("python", (["srv"], "\\.kt$"))]) ∧
    (pyUpdate default_patterns [("python", (["srv"], "\\.kt$"))] =
       [] ++ ("python", (["srv"], "\\.kt$")) ::
         [("javascript", (["frontend"], "\\.js$")),
          ("jsx", (["frontend"], "\\.jsx$")),
          ("html", (["templates"], "\\.html$")),
          ("css", (["static", "css"], "\\.css$")),
          ("json", (["static", "data"], "\\.json$")),
          ("yaml", (["config"], "\\.(yaml|yml)$")),
          ("markdown", (["docs"], "\\.md$"))] ∧
     reCompile "\\.kt$" = some ktRE ∧
     reSearch ktRE (chars "a.kt") = true ∧
     detect_language_and_directory (chars "a.kt")
         [("python", (["srv"], "\\.kt$"))] = .ok ("python", ["srv"])) := by
  refine ⟨⟨by decide, ?_⟩, by decide, rfl, by decide, ?_⟩
  · exact merge_order_and_first_match.1 [("python", (["srv"], "\\.kt$"))] (by decide)
  · exact merge_order_and_first_match.2 [("python", (["srv"], "\\.kt$"))] (chars "a.kt")
      [] "python" ["srv"] "\\.kt$"
      [("javascript", (["frontend"], "\\.js$")),
       ("jsx", (["frontend"], "\\.jsx$")),
       ("html", (["templates"], "\\.html$")),
       ("css", (["static", "css"], "\\.css$")),
       ("json", (["static", "data"], "\\.json$")),
       ("yaml", (["config"], "\\.(yaml|yml)$")),
       ("markdown", (["docs"], "\\.md$"))] ktRE (by decide)
      (fun r hr => absurd hr (List.not_mem_nil r)) rfl (by decide)

/-- Claim C2: the lazy content capture of the block regex is
minimal-extent: no terminator (fence delimiter, line-start `# `, or end
of document) occurs strictly inside a captured content, and the capture
stops exactly at such a terminator; in particular a document with two
consecutive unfenced headings each followed by a paragraph yields two
blocks, each capturing only its own paragraph. -/
theorem scan_content_minimal_extent :
    (∀ (s : Chars) (ls : Bool),
       termFreeUpTo ls s ((splitContent ls s).1.length) = true ∧
       termAt (lastLS ls (splitContent ls s).1) (s.drop (splitContent ls s).1.length) = true) ∧
    blocksOf (chars "# a.py\nfirst paragraph\n# b.md\nsecond paragraph\n") =
      [(chars "a.py", chars "py", [], chars "first paragraph"),
       (chars "b.md", chars "md", [], chars "second paragraph")] :=
  ⟨splitContentFirstTerm, by decide⟩

theorem fenceCharsEq : fenceChars = [btick, btick, btick] := rfl

theorem startsFenceHead {c : Char} (l : Chars) (h : ¬ c = btick) :
    startsFence (c :: l) = false := by
  simp [startsFence, fenceCharsEq, h]

theorem startsFenceDest {r : Chars} (h : startsFence r = true) :
    ∃ t, r = btick :: btick :: btick :: t := by
  cases r with
  | nil => simp [startsFence, fenceCharsEq] at h
  | cons a r1 =>
      cases r1 with
      | nil => simp [startsFence, fenceCharsEq] at h
      | cons b r2 =>
          cases r2 with
          | nil => simp [startsFence, fenceCharsEq] at h
          | cons d t =>
              simp [startsFence, fenceCharsEq] at h
              obtain ⟨rfl, rfl, rfl⟩ := h
              exact ⟨t, rfl⟩

theorem startsHeadTermDest {r : Chars} (h : startsHeadTerm r = true) :
    ∃ t, r = '#' :: ' ' :: t := by
  cases r with
  | nil => simp [startsHeadTerm, chars] at h
  | cons a r1 =>
      cases r1 with
      | nil => simp [startsHeadTerm, chars] at h
      | cons b t =>
          simp [startsHeadTerm, chars] at h
          obtain ⟨rfl, rfl⟩ := h
          exact ⟨t, rfl⟩

theorem startsHeadTermTwo (c d : Char) (X Y : Chars) :
    startsHeadTerm (c :: d :: X) = startsHeadTerm (c :: d :: Y) := rfl

/-- Terminator-free text followed by a terminator splits exactly at the
boundary: the content is the whole text and the match ends at the
terminator (consuming it when it is a fence). -/
theorem splitContentClean :
    ∀ (body : Chars) (ls : Bool) (r : Chars), cleanBody ls body = true →
      ((r = [] → splitContent ls (body ++ r) = (body, [], false)) ∧
       (startsHeadTerm r = true → lastLS ls body = true →
         splitContent ls (body ++ r) = (body, r, true)) ∧
       (startsFence r = true → splitContent ls (body ++ r) = (body, r.drop 3, false))) := by
  intro body
  induction body with
  | nil =>
      intro ls r _
      refine ⟨?_, ?_, ?_⟩
      · intro hr; subst hr; rfl
      · intro hterm hls
        obtain ⟨t, rfl⟩ := startsHeadTermDest hterm
        have hls2 : ls = true := hls
        subst hls2
        rw [List.nil_append]
        have hnf : startsFence ('#' :: ' ' :: t) = false :=
          startsFenceHead _ (by decide)
        simp [splitContent, hnf, hterm]
      · intro hf
        obtain ⟨t, rfl⟩ := startsFenceDest hf
        rw [List.nil_append]
        have hf2 : startsFence (btick :: btick :: btick :: t) = true := hf
        simp [splitContent, hf2]
  | cons c body2 ih =>
      intro ls r hcb
      simp only [cleanBody, Bool.and_eq_true, Bool.not_eq_true'] at hcb
      obtain ⟨⟨hc1, hc2⟩, hc3⟩ := hcb
      have hfence : ∀ Y : Chars, startsFence (c :: Y) = false :=
        fun Y => startsFenceHead Y (of_decide_eq_false hc1)
      have hnterm : ∀ Y : Chars,
          (startsHeadTerm (c :: body2) = startsHeadTerm (c :: (body2 ++ Y))) ∨ body2 = [] := by
        intro Y
        cases body2 with
        | nil => right; rfl
        | cons d body3 =>
            left
            simp only [List.cons_append]
            exact startsHeadTermTwo c d body3 (body3 ++ Y)
      -- a helper discharging the head-terminator test for each shape of r
      have step : ∀ (r2 : Chars), (ls && startsHeadTerm (c :: (body2 ++ r2))) = false →
          splitContent ls ((c :: body2) ++ r2) =
            (c :: (splitContent (c = '\n') (body2 ++ r2)).1,
             (splitContent (c = '\n') (body2 ++ r2)).2.1,
             (splitContent (c = '\n') (body2 ++ r2)).2.2) := by
        intro r2 hht
        rw [List.cons_append]
        simp [splitContent, hfence (body2 ++ r2), hht]
      refine ⟨?_, ?_, ?_⟩
      · intro hr
        subst hr
        have hht : (ls && startsHeadTerm (c :: (body2 ++ []))) = false := by
          rcases hnterm [] with heq | hb2
          · rw [List.append_nil] at heq ⊢
            rw [← heq]
            simp [hc2]
          · subst hb2
            simp [startsHeadTerm, chars]
        rw [step [] hht]
        have := (ih (c = '\n') [] hc3).1 rfl
        rw [List.append_nil] at this ⊢
        rw [this]
      · intro hterm hls
        obtain ⟨t, rfl⟩ := startsHeadTermDest hterm
        have hht : (ls && startsHeadTerm (c :: (body2 ++ '#' :: ' ' :: t))) = false := by
          rcases hnterm ('#' :: ' ' :: t) with heq | hb2
          · rw [← heq]
            simp [hc2]
          · subst hb2
            simp [startsHeadTerm, chars]
        rw [step _ hht]
        have := (ih (c = '\n') _ hc3).2.1 hterm hls
        rw [this]
      · intro hf
        obtain ⟨t, rfl⟩ := startsFenceDest hf
        have hht : (ls && startsHeadTerm (c :: (body2 ++ btick :: btick :: btick :: t))) = false := by
          rcases hnterm (btick :: btick :: btick :: t) with heq | hb2
          · rw [← heq]
            simp [hc2]
          · subst hb2
            simp [startsHeadTerm, chars, btick]
        rw [step _ hht]
        have := (ih (c = '\n') _ hc3).2.2 hf
        rw [this]

theorem headParse (name : Chars) (x0 : Char) (X1 : Chars) (hne : name ≠ [])
    (hnall : ∀ ch ∈ name, isPySpace ch = false) (hx0 : isPySpace x0 = false) :
    List.dropWhile isPySpace (' ' :: (name ++ '\n' :: (x0 :: X1))) =
      name ++ '\n' :: (x0 :: X1) ∧
    List.takeWhile (fun c => !(isPySpace c)) (name ++ '\n' :: (x0 :: X1)) = name ∧
    List.dropWhile (fun c => !(isPySpace c)) (name ++ '\n' :: (x0 :: X1)) =
      '\n' :: (x0 :: X1) ∧
    List.takeWhile isPySpace ('\n' :: (x0 :: X1)) = ['\n'] ∧
    List.dropWhile isPySpace ('\n' :: (x0 :: X1)) = x0 :: X1 := by
  obtain ⟨n0, name1, rfl⟩ := List.exists_cons_of_ne_nil hne
  have h0 : isPySpace n0 = false := hnall n0 (by simp)
  have hsp : isPySpace ' ' = true := by decide
  have hnl : isPySpace '\n' = true := by decide
  refine ⟨?_, ?_, ?_, ?_, ?_⟩
  · simp [List.dropWhile_cons, hsp, h0]
  · rw [takeWhileAllAppend (fun x hx => by simp [hnall x hx])]
    simp [List.takeWhile_cons, hnl]
  · rw [dropWhileAllAppend (fun x hx => by simp [hnall x hx])]
    simp [List.dropWhile_cons, hnl]
  · simp [List.takeWhile_cons, hnl, hx0]
  · simp [List.dropWhile_cons, hnl, hx0]

theorem matchAtSegNone (name body r : Chars) (h : goodSeg (name, none, body) = true)
    (hr : r = [] ∨ startsHeadTerm r = true) :
    matchAt (mkSeg (name, none, body) ++ r) =
      some ((name, (endsWithRecExt name).getD [], [], body), r, !r.isEmpty) := by
  simp only [goodSeg, Bool.and_eq_true, Bool.not_eq_true'] at h
  obtain ⟨⟨⟨⟨⟨hn1, hn2⟩, hn3⟩, hb1⟩, hb2⟩, hb3, hb4⟩ := h
  obtain ⟨ext, hext⟩ := Option.isSome_iff_exists.mp hn3
  have hnall : ∀ ch ∈ name, isPySpace ch = false := by
    intro ch hch
    have := List.all_eq_true.mp hn2 ch hch
    simpa using this
  have hnne : name ≠ [] := by
    cases name
    · simp at hn1
    · simp
  cases body with
  | nil => simp at hb1
  | cons b0 body1 =>
  have hb0 : isPySpace b0 = false := by simpa [headNS] using hb3
  have hb0t : ¬ b0 = btick := by
    simp only [cleanBody, Bool.and_eq_true, Bool.not_eq_true'] at hb2
    exact of_decide_eq_false hb2.1.1
  obtain ⟨e1, e2, e3, e4, e5⟩ := headParse name b0 (body1 ++ r) hnne hnall hb0
  have hdoc : mkSeg (name, none, b0 :: body1) ++ r =
      '#' :: ' ' :: (name ++ '\n' :: (b0 :: (body1 ++ r))) := by simp [mkSeg]
  rw [hdoc]
  have hmO : matchAt ('#' :: ' ' :: (name ++ '\n' :: (b0 :: (body1 ++ r)))) =
      matchCore (' ' :: (name ++ '\n' :: (b0 :: (body1 ++ r)))) := by simp [matchAt]
  rw [hmO]
  have w1 : (['\n'] : Chars).contains '\n' = true := rfl
  have w2 : (((['\n'] : Chars).reverse).takeWhile (fun c => c ≠ '\n')).reverse =
      ([] : Chars) := rfl
  have hsf : startsFence (b0 :: (body1 ++ r)) = false := startsFenceHead _ hb0t
  have hsc : splitContent true (b0 :: (body1 ++ r)) = (b0 :: body1, r, !r.isEmpty) := by
    have hsteps := splitContentClean (b0 :: body1) true r hb2
    rcases hr with rfl | hterm
    · have := hsteps.1 rfl
      rw [List.cons_append] at this
      rw [this]
      rfl
    · have := hsteps.2.1 hterm hb4
      rw [List.cons_append] at this
      rw [this]
      obtain ⟨t, rfl⟩ := startsHeadTermDest hterm
      rfl
  simp only [matchCore, e1, e2, e3, e4, e5, hn1, hext, w1, w2, List.nil_append,
    hsf, hsc, Bool.false_eq_true, if_false, List.isEmpty_cons, Option.getD_some]
  simp

theorem matchAtSegFence (name lg body r : Chars)
    (h : goodSeg (name, some lg, body) = true) :
    matchAt (mkSeg (name, some lg, body) ++ r) =
      some ((name, (endsWithRecExt name).getD [], lg, body), '\n' :: r, false) := by
  simp only [goodSeg, Bool.and_eq_true, Bool.not_eq_true'] at h
  obtain ⟨⟨⟨⟨⟨hn1, hn2⟩, hn3⟩, hb1⟩, hb2⟩, hlg⟩ := h
  obtain ⟨ext, hext⟩ := Option.isSome_iff_exists.mp hn3
  have hnall : ∀ ch ∈ name, isPySpace ch = false := by
    intro ch hch
    have := List.all_eq_true.mp hn2 ch hch
    simpa using this
  have hnne : name ≠ [] := by
    cases name
    · simp at hn1
    · simp
  have hlgall : ∀ ch ∈ lg, isWordChar ch = true := List.all_eq_true.mp hlg
  have hwnl : isWordChar '\n' = false := by decide
  obtain ⟨e1, e2, e3, e4, e5⟩ := headParse name btick
      (btick :: btick :: (lg ++ '\n' :: (body ++ (btick :: btick :: btick :: '\n' :: r))))
      hnne hnall (by decide)
  have hdoc : mkSeg (name, some lg, body) ++ r =
      '#' :: ' ' :: (name ++ '\n' ::
        (btick :: btick :: btick ::
          (lg ++ '\n' :: (body ++ (btick :: btick :: btick :: '\n' :: r))))) := by
    simp [mkSeg, fenceCharsEq]
  rw [hdoc]
  have hmO : matchAt ('#' :: ' ' :: (name ++ '\n' ::
      (btick :: btick :: btick ::
        (lg ++ '\n' :: (body ++ (btick :: btick :: btick :: '\n' :: r)))))) =
      matchCore (' ' :: (name ++ '\n' ::
        (btick :: btick :: btick ::
          (lg ++ '\n' :: (body ++ (btick :: btick :: btick :: '\n' :: r)))))) := by
    simp [matchAt]
  rw [hmO]
  have w1 : (['\n'] : Chars).contains '\n' = true := rfl
  have w2 : (((['\n'] : Chars).reverse).takeWhile (fun c => c ≠ '\n')).reverse =
      ([] : Chars) := rfl
  have hsf : startsFence (btick :: btick :: btick ::
      (lg ++ '\n' :: (body ++ (btick :: btick :: btick :: '\n' :: r)))) = true := by
    simp [startsFence, fenceCharsEq]
  have eW1 : List.takeWhile isWordChar
      (lg ++ '\n' :: (body ++ (btick :: btick :: btick :: '\n' :: r))) = lg := by
    rw [takeWhileAllAppend hlgall]
    simp [List.takeWhile_cons, hwnl]
  have eW2 : List.dropWhile isWordChar
      (lg ++ '\n' :: (body ++ (btick :: btick :: btick :: '\n' :: r))) =
      '\n' :: (body ++ (btick :: btick :: btick :: '\n' :: r)) := by
    rw [dropWhileAllAppend hlgall]
    simp [List.dropWhile_cons, hwnl]
  have hscF : splitContent true (body ++ (btick :: btick :: btick :: '\n' :: r)) =
      (body, '\n' :: r, false) := by
    have hstep := (splitContentClean body true (btick :: btick :: btick :: '\n' :: r)
      hb2).2.2 (by simp [startsFence, fenceCharsEq])
    rw [hstep]
    rfl
  simp only [matchCore, e1, e2, e3, e4, e5, hn1, hext, w1, w2, List.nil_append,
    hsf, List.drop_succ_cons, List.drop_zero, eW1, eW2, hscF, Option.getD_some]
  simp

theorem scanLoopNil (fuel : Nat) (ls : Bool) : scanLoop fuel ls [] = [] := by
  cases fuel <;> rfl

theorem scanLoopOnMatch (f : Nat) (c : Char) (t : Chars) (q : Quad) (r2 : Chars)
    (ls2 : Bool) (hm : matchAt (c :: t) = some (q, r2, ls2)) :
    scanLoop (f + 1) true (c :: t) = q :: scanLoop f ls2 r2 := by
  simp [scanLoop, hm]

theorem scanLoopSkipNL (f : Nat) (t : Chars) :
    scanLoop (f + 1) false ('\n' :: t) = scanLoop f true t := by
  simp [scanLoop]

/-- The scan of a well-formed document emits exactly one tuple per
segment, in document order. -/
theorem scanLoopMkDoc : ∀ (segs : List (Chars × Option Chars × Chars)) (fuel : Nat),
    (mkDocL segs).length < fuel → segs.all goodSeg = true →
    scanLoop fuel true (mkDocL segs) = segs.map quadOf := by
  intro segs
  induction segs with
  | nil => intro fuel _ _; exact scanLoopNil fuel true
  | cons seg rest ih =>
      intro fuel hf hall
      obtain ⟨name, fence, body⟩ := seg
      rw [List.all_cons, Bool.and_eq_true] at hall
      obtain ⟨hgood, hrest⟩ := hall
      have hdocc : mkDocL ((name, fence, body) :: rest) =
          mkSeg (name, fence, body) ++ mkDocL rest := rfl
      rw [hdocc] at hf ⊢
      rw [List.length_append] at hf
      cases fuel with
      | zero => exact absurd hf (Nat.not_lt_zero _)
      | succ f =>
      cases fence with
      | none =>
          have hlen : 1 ≤ (mkSeg (name, none, body)).length := by simp [mkSeg]
          have hr : mkDocL rest = [] ∨ startsHeadTerm (mkDocL rest) = true := by
            cases rest with
            | nil => exact Or.inl rfl
            | cons s2 r2 =>
                right
                obtain ⟨n2, f2, b2⟩ := s2
                have hd2 : mkDocL ((n2, f2, b2) :: r2) =
                    mkSeg (n2, f2, b2) ++ mkDocL r2 := rfl
                rw [hd2]
                cases f2 <;> simp [mkSeg, startsHeadTerm, chars]
          have hm := matchAtSegNone name body (mkDocL rest) hgood hr
          have hshape : mkSeg (name, none, body) ++ mkDocL rest =
              '#' :: (' ' :: (name ++ '\n' :: body ++ mkDocL rest)) := by
            simp [mkSeg]
          rw [hshape]
          rw [scanLoopOnMatch f _ _ _ _ _ (hshape ▸ hm)]
          rw [List.map_cons]
          congr 1
          cases rest with
          | nil => exact scanLoopNil f _
          | cons s2 r2 =>
              have hne2 : (mkDocL (s2 :: r2)).isEmpty = false := by
                obtain ⟨n2, f2, b2⟩ := s2
                have hd2 : mkDocL ((n2, f2, b2) :: r2) =
                    mkSeg (n2, f2, b2) ++ mkDocL r2 := rfl
                rw [hd2]
                cases f2 <;> simp [mkSeg]
              rw [hne2]
              exact ih f (by omega) hrest
      | some lg =>
          have hlen : 2 ≤ (mkSeg (name, some lg, body)).length := by simp [mkSeg]
          have hm := matchAtSegFence name lg body (mkDocL rest) hgood
          have hshape : mkSeg (name, some lg, body) ++ mkDocL rest =
              '#' :: (' ' :: (name ++ '\n' ::
                (fenceChars ++ (lg ++ '\n' ::
                  (body ++ (fenceChars ++ ['\n'])))) ++ mkDocL rest)) := by
            simp [mkSeg]
          rw [hshape]
          rw [scanLoopOnMatch f _ _ _ _ _ (hshape ▸ hm)]
          rw [List.map_cons]
          congr 1
          cases f with
          | zero => omega
          | succ f2 =>
              rw [scanLoopSkipNL f2 (mkDocL rest)]
              exact ih f2 (by omega) hrest

/-- Claim C1: for every well-formed document — a nonempty list of
segments, each a distinct recognized-extension heading followed by
content (optionally fenced) — the single regex pass returns exactly one
tuple per segment, and the tuples appear in the order of their
introducing headings. -/
theorem scan_wellformed_count_order :
    ∀ segs : List (Chars × Option Chars × Chars),
      segs ≠ [] → segs.all goodSeg = true →
      (segs.map (fun s => s.1)).Nodup →
      file_pattern_findall (mkDocL segs) = segs.map quadOf := by
  intro segs _ hall _
  exact scanLoopMkDoc segs ((mkDocL segs).length + 1) (by omega) hall

/-- Witness for C1 at a two-segment document, one unfenced and one
fenced. -/
theorem scan_wellformed_count_order_witness :
    ([(chars "a.py", none, chars "alpha\n"),
      (chars "b.md", some (chars "md"), chars "line1\nline2\n")] ≠
        ([] : List (Chars × Option Chars × Chars))) ∧
    ([(chars "a.py", none, chars "alpha\n"),
      (chars "b.md", some (chars "md"), chars "line1\nline2\n")].all goodSeg = true) ∧
    (([(chars "a.py", none, chars "alpha\n"),
       (chars "b.md", some (chars "md"), chars "line1\nline2\n")].map
        (fun s => s.1)).Nodup) ∧
    file_pattern_findall (mkDocL
        [(chars "a.py", none, chars "alpha\n"),
         (chars "b.md", some (chars "md"), chars "line1\nline2\n")]) =
      [(chars "a.py", none, chars "alpha\n"),
       (chars "b.md", some (chars "md"), chars "line1\nline2\n")].map quadOf := by
  refine ⟨by decide, by decide, by decide, ?_⟩
  exact scan_wellformed_count_order
    [(chars "a.py", none, chars "alpha\n"),
     (chars "b.md", some (chars "md"), chars "line1\nline2\n")]
    (by decide) (by decide) (by decide)

/-- Claim C10: every block emitted by the scanner has a whitespace-free
filename ending in a dot followed by one of the nine recognized
extensions, and the block's extension group is exactly that suffix. -/
theorem block_filename_invariant :
    ∀ (s : Chars) (q : Quad), q ∈ blocksOf s →
      q.1.all (fun c => !(isPySpace c)) = true ∧
      ∃ e, e ∈ recExts ∧ q.2.1 = e ∧ List.isSuffixOf ('.' :: e) q.1 = true := by
  intro s q hq
  unfold blocksOf at hq
  obtain ⟨q0, hq0, rfl⟩ := List.mem_map.mp hq
  obtain ⟨hall, hext⟩ := scanLoopPost _ _ _ q0 hq0
  have hname : (stripQuad q0).1 = q0.1 := pyStripNoSpace hall
  unfold endsWithRecExt at hext
  have hExtMem : q0.2.1 ∈ recExts := List.mem_of_find?_eq_some hext
  have hExtSuf : List.isSuffixOf ('.' :: q0.2.1) q0.1 = true := by
    have hs := List.find?_some hext
    simp only [Bool.and_eq_true, decide_eq_true_eq] at hs
    exact hs.1
  have hExtNoSp : (q0.2.1).all (fun c => !(isPySpace c)) = true := by
    have hd : ∀ e ∈ recExts, e.all (fun c => !(isPySpace c)) = true := by decide
    exact hd _ hExtMem
  refine ⟨?_, q0.2.1, hExtMem, ?_, ?_⟩
  · rw [hname]; exact hall
  · exact pyStripNoSpace hExtNoSp
  · rw [hname]; exact hExtSuf

/-- Witness for C10 at a one-block document. -/
theorem block_filename_invariant_witness :
    (chars "a.py", chars "py", ([] : Chars), chars "hello") ∈
      blocksOf (chars "# a.py\nhello\n") ∧
    ((chars "a.py", chars "py", ([] : Chars), chars "hello").1.all
        (fun c => !(isPySpace c)) = true ∧
     ∃ e, e ∈ recExts ∧ (chars "a.py", chars "py", ([] : Chars), chars "hello").2.1 = e ∧
       List.isSuffixOf ('.' :: e)
         (chars "a.py", chars "py", ([] : Chars), chars "hello").1 = true) := by
  refine ⟨by decide, ?_⟩
  exact block_filename_invariant (chars "# a.py\nhello\n")
    (chars "a.py", chars "py", [], chars "hello") (by decide)

/-- Witness for C8 at a whitespace-only document. -/
theorem extract_no_blocks_writes_nothing_witness :
    file_pattern_findall (chars "   \n") = [] ∧
    (∀ c ∈ chars "   \n", c ≠ '#') ∧
    extract_full_files (some (chars "   \n")) [] ["o"] ⟨[], []⟩ =
      .ok (⟨[], []⟩, .noBlocks) := by
  refine ⟨extract_no_blocks_writes_nothing.2 (chars "   \n") (by decide), by decide, ?_⟩
  exact extract_no_blocks_writes_nothing.1 (chars "   \n") [] ["o"] ⟨[], []⟩ (by decide)
